import Mathlib

/-!
Shallow embedding of the numeric post-processing core of the
`anprcloude` license-plate pipeline
(`src/edge/gstreamer/hailo-postprocess/{plate_detection,plate_crop,plate_ocr}.cpp`),
together with proofs and refutations of the specification claims.

Modelling conventions:
* C++ `float` values are embedded as rationals `ℚ`; the arithmetic the code
  performs (`+`, `-`, `*`, `/`, comparisons) is modelled exactly, with Lean's
  `x / 0 = 0` convention standing in for the single `0/0` corner.
* C++ `std::string` is embedded as `List Char`; `std::vector` as `List`.
* Flat tensor buffers are `List ℚ`; an index read `data[k]` is `data.getD k 0`
  (the C++ code performs no bounds check whatsoever, which is itself the
  subject of one of the claims).
-/

namespace ANPR

/-- `struct Detection` from plate_detection.cpp: corner-form box plus
confidence and class id. -/
structure Detection where
  x : ℚ
  y : ℚ
  width : ℚ
  height : ℚ
  confidence : ℚ
  class_id : ℤ
deriving DecidableEq, Repr

/-- `compute_iou` from plate_detection.cpp lines 56-70: intersection over
union of two corner-form boxes, 0 when the intersection rectangle is empty. -/
def compute_iou (a b : Detection) : ℚ :=
  let x1 := max a.x b.x
  let y1 := max a.y b.y
  let x2 := min (a.x + a.width) (b.x + b.width)
  let y2 := min (a.y + a.height) (b.y + b.height)
  if x2 < x1 ∨ y2 < y1 then 0
  else
    let intersection := (x2 - x1) * (y2 - y1)
    let area_a := a.width * a.height
    let area_b := b.width * b.height
    let union_area := area_a + area_b - intersection
    intersection / union_area

/-- The greedy suppression pass of `apply_nms` (plate_detection.cpp lines
32-48): each accepted head suppresses every later not-yet-suppressed
detection whose IoU with it exceeds the threshold.  The C++ `suppressed[]`
flag array is modelled by filtering the suppressed elements out of the
remaining list at each acceptance step. -/
def nmsLoop (iou_threshold : ℚ) : List Detection → List Detection
  | [] => []
  | d :: rest =>
      d :: nmsLoop iou_threshold
        (rest.filter fun j => decide (compute_iou d j ≤ iou_threshold))
termination_by l => l.length
decreasing_by
  simp only [List.length_cons]
  exact Nat.lt_succ_of_le (List.length_filter_le _ _)

/-- The comparator passed to `std::sort` in `apply_nms`
(`a.confidence > b.confidence`), turned into the non-strict "may come
before" relation it induces: `a` may precede `b` iff `¬(b.confidence >
a.confidence)`, i.e. `b.confidence ≤ a.confidence`. -/
def confGE (a b : Detection) : Bool := decide (b.confidence ≤ a.confidence)

/-- `apply_nms` from plate_detection.cpp lines 23-51: sort by confidence
descending, then run the greedy suppression pass.  The `std::sort` call is
modelled with `List.mergeSort`. -/
def apply_nms (detections : List Detection) (iou_threshold : ℚ) : List Detection :=
  nmsLoop iou_threshold (detections.mergeSort confGE)

/-! ## Detection decoder (`plate_detection`, plate_detection.cpp lines 79-137)

The decode loop reads, for row `i`, the five values
`data[i*stride + 0 .. i*stride + 4]` and keeps the row when its column-4
confidence is at least the threshold, converting the center-form box to
corner-form.  `CONFIDENCE_THRESHOLD` is the constant `0.5f` in the source;
the decode is stated over an arbitrary threshold with the constant
instantiating it. -/

/-- The column-4 confidence value of row `i`. -/
def rowConf (data : List ℚ) (stride i : ℕ) : ℚ :=
  data.getD (i * stride + 4) 0

/-- The `Detection` built from row `i`: center-form to corner-form
conversion (`det.x = cx - w/2`, `det.y = cy - h/2`), size kept. -/
def decodeRow (data : List ℚ) (stride i : ℕ) : Detection :=
  let cx := data.getD (i * stride + 0) 0
  let cy := data.getD (i * stride + 1) 0
  let w := data.getD (i * stride + 2) 0
  let h := data.getD (i * stride + 3) 0
  { x := cx - w / 2
    y := cy - h / 2
    width := w
    height := h
    confidence := rowConf data stride i
    class_id := 0 }

/-- The raw-decode loop of `plate_detection` (lines 100-119): iterate rows
`0 .. num_detections-1`, pushing the decoded detection whenever
`conf >= threshold`.  Note the loop performs no validation of `stride` or of
the buffer length. -/
def plate_detection_raw (data : List ℚ) (num_detections stride : ℕ) (threshold : ℚ) :
    List Detection :=
  (List.range num_detections).foldl
    (fun acc i =>
      if threshold ≤ rowConf data stride i then acc ++ [decodeRow data stride i] else acc)
    []

/-- `CONFIDENCE_THRESHOLD = 0.5f` from plate_detection.cpp line 84. -/
def CONFIDENCE_THRESHOLD : ℚ := 1 / 2

/-- `NMS_THRESHOLD = 0.45f` from plate_detection.cpp line 85. -/
def NMS_THRESHOLD : ℚ := 9 / 20

/-- The whole `plate_detection` filter function (lines 79-137): raw decode
followed by NMS.  Its return type is a plain list of detections — the
function has no error channel and performs no shape validation. -/
def plate_detection (data : List ℚ) (num_detections stride : ℕ) : List Detection :=
  apply_nms (plate_detection_raw data num_detections stride CONFIDENCE_THRESHOLD)
    NMS_THRESHOLD

/-! ## Crop transformer (`crop_plates`, plate_crop.cpp lines 18-55) -/

/-- A `HailoCroppedImage` as populated by plate_crop.cpp: integer pixel
rectangle, fixed OCR target size and the originating detection. -/
structure CropRegion where
  x : ℤ
  y : ℤ
  w : ℤ
  h : ℤ
  target_width : ℤ
  target_height : ℤ
  detection : Detection
deriving DecidableEq, Repr

/-- `OCR_WIDTH = 200` from plate_crop.cpp line 25. -/
def OCR_WIDTH : ℤ := 200

/-- `OCR_HEIGHT = 64` from plate_crop.cpp line 26. -/
def OCR_HEIGHT : ℤ := 64

/-- C++ `static_cast<int>` on a floating value: truncation toward zero. -/
def truncQ (q : ℚ) : ℤ := if 0 ≤ q then ⌊q⌋ else ⌈q⌉

/-- Clamped crop x-origin: `x = std::max(0, std::min(x, width - 1))`. -/
def cropX (W : ℤ) (det : Detection) : ℤ :=
  max 0 (min (truncQ (det.x * W)) (W - 1))

/-- Clamped crop y-origin: `y = std::max(0, std::min(y, height - 1))`. -/
def cropY (H : ℤ) (det : Detection) : ℤ :=
  max 0 (min (truncQ (det.y * H)) (H - 1))

/-- Clamped crop width: `w = std::min(w, width - x)`. -/
def cropW (W : ℤ) (det : Detection) : ℤ :=
  min (truncQ (det.width * W)) (W - cropX W det)

/-- Clamped crop height: `h = std::min(h, height - y)`. -/
def cropH (H : ℤ) (det : Detection) : ℤ :=
  min (truncQ (det.height * H)) (H - cropY H det)

/-- The per-detection body of the `crop_plates` loop (plate_crop.cpp lines
28-52): scale, truncate, clamp, and drop the detection when the clamped
width or height is non-positive. -/
def crop_one (W H : ℤ) (det : Detection) : Option CropRegion :=
  if cropW W det ≤ 0 ∨ cropH H det ≤ 0 then none
  else some
    { x := cropX W det
      y := cropY H det
      w := cropW W det
      h := cropH H det
      target_width := OCR_WIDTH
      target_height := OCR_HEIGHT
      detection := det }

/-- `crop_plates`: the loop over all detections, emitting zero or one
region per detection. -/
def crop_plates (W H : ℤ) (detections : List Detection) : List CropRegion :=
  detections.filterMap (crop_one W H)

/-! ## Sequence decoder and validator (`plate_ocr.cpp`) -/

/-- `CHARSET` from plate_ocr.cpp line 15, as its character list. -/
def CHARSET : List Char := "0123456789ABCDEFGHIJKLMNOPQRSTUVWXYZ".data

/-- `BLANK_INDEX = CHARSET.length()` from plate_ocr.cpp line 16 — a fixed
constant (36), independent of the tensor's class count. -/
def BLANK_INDEX : ℕ := CHARSET.length

/-- `struct OCRResult` from plate_ocr.cpp lines 18-22. -/
structure OCRResult where
  text : List Char
  confidence : ℚ
  char_confidences : List ℚ
deriving DecidableEq, Repr

/-- The inner argmax loop of `ctc_greedy_decode` (lines 39-48): start from
index 0 with its value, scan `c = 1 .. num_classes-1`, updating only on a
strictly greater value, so the lowest index among maxima wins.  Returns
`(max_idx, max_prob)`. -/
def argmaxRow (data : List ℚ) (num_classes t : ℕ) : ℕ × ℚ :=
  (List.range' 1 (num_classes - 1)).foldl
    (fun acc c =>
      let prob := data.getD (t * num_classes + c) 0
      if acc.2 < prob then (c, prob) else acc)
    (0, data.getD (t * num_classes + 0) 0)

/-- The chosen class index at timestep `t`. -/
def argmaxIdx (data : List ℚ) (num_classes t : ℕ) : ℕ :=
  (argmaxRow data num_classes t).1

/-- The loop state of `ctc_greedy_decode`: `prev_char`, the accumulated
text and per-character confidences, the running sum and emitted count. -/
structure CTCState where
  prev_char : ℕ
  text : List Char
  char_confidences : List ℚ
  total_conf : ℚ
  char_count : ℕ
deriving DecidableEq, Repr

/-- One timestep of `ctc_greedy_decode` (lines 37-61): argmax, then emit
when the index is not the (fixed) blank, differs from `prev_char`, and is a
valid `CHARSET` index; `prev_char` is updated to the argmax either way. -/
def ctcStep (data : List ℚ) (num_classes : ℕ) (st : CTCState) (t : ℕ) : CTCState :=
  let m := argmaxRow data num_classes t
  if m.1 ≠ BLANK_INDEX ∧ m.1 ≠ st.prev_char ∧ m.1 < CHARSET.length then
    { prev_char := m.1
      text := st.text ++ [CHARSET.getD m.1 ' ']
      char_confidences := st.char_confidences ++ [m.2]
      total_conf := st.total_conf + m.2
      char_count := st.char_count + 1 }
  else
    { st with prev_char := m.1 }

/-- `ctc_greedy_decode` from plate_ocr.cpp lines 28-67: fold the per-timestep
step over `t = 0 .. timesteps-1` starting from `prev_char = BLANK_INDEX`,
then divide the confidence sum by the emitted count (0 if none emitted). -/
def ctc_greedy_decode (data : List ℚ) (timesteps num_classes : ℕ) : OCRResult :=
  let st := (List.range timesteps).foldl (ctcStep data num_classes)
    { prev_char := BLANK_INDEX, text := [], char_confidences := [],
      total_conf := 0, char_count := 0 }
  { text := st.text
    confidence := if 0 < st.char_count then st.total_conf / st.char_count else 0
    char_confidences := st.char_confidences }

/-- `ctc_beam_search_decode` (lines 73-79) simply falls back to greedy. -/
def ctc_beam_search_decode (data : List ℚ) (timesteps num_classes : ℕ)
    (beam_width : ℕ := 5) : OCRResult :=
  ctc_greedy_decode data timesteps num_classes

/-- Membership in `CHARSET`, i.e. `CHARSET.find(c) != std::string::npos`. -/
def validChar (c : Char) : Bool := CHARSET.contains c

/-- `validate_plate_text` from plate_ocr.cpp lines 85-100: strip characters
not in `CHARSET`, then reject (empty result) unless the cleaned length is
in `[4, 8]`. -/
def validate_plate_text (text : List Char) : List Char :=
  let cleaned := text.filter validChar
  if cleaned.length < 4 ∨ 8 < cleaned.length then [] else cleaned

/-- `MIN_CONFIDENCE = 0.6f` from plate_ocr.cpp line 116. -/
def MIN_CONFIDENCE : ℚ := 3 / 5

/-- A `HailoClassification` as populated by `plate_ocr`, with the two
metadata entries modelled as explicit fields. -/
structure Classification where
  label : List Char
  confidence : ℚ
  char_confidences : List ℚ
  raw_text : List Char
deriving DecidableEq, Repr

/-- `plate_ocr` from plate_ocr.cpp lines 109-152 (with `USE_BEAM_SEARCH =
false`): greedy decode, validate, and emit one classification exactly when
the validated text is non-empty and the decode confidence (computed over
the raw, pre-validation text) reaches `MIN_CONFIDENCE`. -/
def plate_ocr (data : List ℚ) (timesteps num_classes : ℕ) : List Classification :=
  let ocr := ctc_greedy_decode data timesteps num_classes
  let plate_text := validate_plate_text ocr.text
  if plate_text ≠ [] ∧ MIN_CONFIDENCE ≤ ocr.confidence then
    [{ label := plate_text
       confidence := ocr.confidence
       char_confidences := ocr.char_confidences
       raw_text := ocr.text }]
  else []

/-! ## Specification-level companions used to state the claims -/

/-- The per-timestep emission rule of `ctc_greedy_decode`, written as a
direct recursion over the list of per-timestep `(argmax index, argmax
value)` pairs: a pair emits its character and confidence exactly when its
index is not `BLANK_INDEX`, differs from the previous timestep's index, and
is a valid `CHARSET` position.  Returns the emitted characters together
with their confidences. -/
def ctcCollapse : ℕ → List (ℕ × ℚ) → List Char × List ℚ
  | _, [] => ([], [])
  | prev, m :: rest =>
      let r := ctcCollapse m.1 rest
      if m.1 ≠ BLANK_INDEX ∧ m.1 ≠ prev ∧ m.1 < CHARSET.length then
        (CHARSET.getD m.1 ' ' :: r.1, m.2 :: r.2)
      else r

/-- The recognition buffer of the specification's worked example: T = 6,
C = 3, per-timestep argmax sequence `[0, 0, 2, 1, 1, 2]` (one-hot rows). -/
def exampleRecognition : List ℚ :=
  [1, 0, 0, 1, 0, 0, 0, 0, 1, 0, 1, 0, 0, 1, 0, 0, 0, 1]

/-- The detection of the specification's crop example: corner-form box
origin (0.4, 0.45), size (0.2, 0.1), confidence 0.9. -/
def exampleDet : Detection :=
  { x := 2/5, y := 9/20, width := 1/5, height := 1/10, confidence := 9/10, class_id := 0 }

/-- The crop region produced from `exampleDet` on an 800×400 frame. -/
def exampleRegion : CropRegion :=
  { x := 320, y := 180, w := 160, h := 40
    target_width := OCR_WIDTH, target_height := OCR_HEIGHT, detection := exampleDet }

/-! ## Theorems -/

/-- IoU is symmetric (helper, shared by several claims). -/
theorem compute_iou_comm (a b : Detection) : compute_iou a b = compute_iou b a := by
  unfold compute_iou
  simp only [max_comm b.x a.x, max_comm b.y a.y,
    min_comm (b.x + b.width) (a.x + a.width),
    min_comm (b.y + b.height) (a.y + a.height)]
  split
  · rfl
  · ring_nf

/-- C7, counterexample: for the degenerate box with zero size at the
origin, `compute_iou` of the box with itself is `0`, not `1` as the claim
("for every box a, IoU(a,a) = 1") requires. -/
theorem claim_C7_cex :
    compute_iou ⟨0, 0, 0, 0, 0, 0⟩ ⟨0, 0, 0, 0, 0, 0⟩ = 0 ∧ (0 : ℚ) ≠ 1 := by
  constructor
  · simp only [compute_iou]
    norm_num
  · norm_num

/-- C7 (amended): `compute_iou` is symmetric for all pairs of boxes;
`IoU(a,a) = 1` for every box of positive width and height (for degenerate
boxes the self-IoU is 0); and any two boxes whose intersection rectangle is
empty have IoU 0. -/
theorem claim_C7 :
    (∀ a b : Detection, compute_iou a b = compute_iou b a)
    ∧ (∀ a : Detection, 0 < a.width → 0 < a.height → compute_iou a a = 1)
    ∧ (∀ a b : Detection,
        ¬ (max a.x b.x < min (a.x + a.width) (b.x + b.width)
            ∧ max a.y b.y < min (a.y + a.height) (b.y + b.height)) →
        compute_iou a b = 0) := by
  refine ⟨compute_iou_comm, ?_, ?_⟩
  · intro a hw hh
    unfold compute_iou
    simp only [max_self, min_self]
    rw [if_neg (by push_neg; constructor <;> linarith)]
    have h1 : (a.x + a.width - a.x) * (a.y + a.height - a.y) = a.width * a.height := by
      ring
    rw [h1]
    have h2 : a.width * a.height + a.width * a.height - a.width * a.height
        = a.width * a.height := by ring
    rw [h2, div_self (ne_of_gt (mul_pos hw hh))]
  · intro a b h
    simp only [compute_iou]
    split
    · rfl
    · rename_i hlt
      push_neg at hlt
      push_neg at h
      rcases lt_or_le (max a.x b.x) (min (a.x + a.width) (b.x + b.width)) with hx | hx
      · have hy := h hx
        have : min (a.y + a.height) (b.y + b.height) - max a.y b.y = 0 := by
          have := hlt.2
          linarith
        rw [this, mul_zero, zero_div]
      · have : min (a.x + a.width) (b.x + b.width) - max a.x b.x = 0 := by
          have := hlt.1
          linarith
        rw [this, zero_mul, zero_div]

/-- C7 witness: the amended theorem instantiated at concrete boxes. -/
theorem claim_C7_witness :
    compute_iou ⟨0, 0, 2, 2, 0, 0⟩ ⟨1, 1, 2, 2, 0, 0⟩
        = compute_iou ⟨1, 1, 2, 2, 0, 0⟩ ⟨0, 0, 2, 2, 0, 0⟩
    ∧ compute_iou ⟨0, 0, 2, 2, 0, 0⟩ ⟨0, 0, 2, 2, 0, 0⟩ = 1
    ∧ compute_iou ⟨0, 0, 1, 1, 0, 0⟩ ⟨5, 5, 1, 1, 0, 0⟩ = 0 :=
  ⟨claim_C7.1 _ _, claim_C7.2.1 ⟨0, 0, 2, 2, 0, 0⟩ (by norm_num) (by norm_num),
    claim_C7.2.2 ⟨0, 0, 1, 1, 0, 0⟩ ⟨5, 5, 1, 1, 0, 0⟩ (by norm_num)⟩

/-- The suppression pass only ever keeps elements of its input, in input
order. -/
theorem nmsLoop_sublist (τ : ℚ) (l : List Detection) : List.Sublist (nmsLoop τ l) l := by
  induction l using nmsLoop.induct τ with
  | case1 => simp [nmsLoop]
  | case2 d rest ih =>
      rw [nmsLoop]
      exact (ih.trans (List.filter_sublist rest)).cons₂ d

/-- Any two detections kept by the suppression pass, in kept order, have
IoU at most the threshold. -/
theorem nmsLoop_pairwise (τ : ℚ) (l : List Detection) :
    (nmsLoop τ l).Pairwise fun a b => compute_iou a b ≤ τ := by
  induction l using nmsLoop.induct τ with
  | case1 => simp [nmsLoop]
  | case2 d rest ih =>
      rw [nmsLoop]
      refine List.Pairwise.cons (fun b hb => ?_) ih
      have hmem : b ∈ rest.filter fun j => decide (compute_iou d j ≤ τ) :=
        (nmsLoop_sublist τ _).subset hb
      have := (List.mem_filter.mp hmem).2
      exact of_decide_eq_true this

/-- On a list whose pairs already all have IoU at most the threshold, the
suppression pass removes nothing. -/
theorem nmsLoop_of_pairwise (τ : ℚ) (l : List Detection)
    (h : l.Pairwise fun a b => compute_iou a b ≤ τ) : nmsLoop τ l = l := by
  induction l using nmsLoop.induct τ with
  | case1 => simp [nmsLoop]
  | case2 d rest ih =>
      rw [nmsLoop]
      rw [List.pairwise_cons] at h
      have hf : (rest.filter fun j => decide (compute_iou d j ≤ τ)) = rest :=
        List.filter_eq_self.mpr fun b hb => decide_eq_true (h.1 b hb)
      rw [hf] at ih ⊢
      rw [ih h.2]

/-- The sort comparator is transitive. -/
theorem confGE_trans (a b c : Detection) :
    confGE a b → confGE b c → confGE a c := by
  simp only [confGE, decide_eq_true_eq]
  exact fun h1 h2 => le_trans h2 h1

/-- The sort comparator is total. -/
theorem confGE_total (a b : Detection) : confGE a b || confGE b a := by
  simp only [confGE, Bool.or_eq_true, decide_eq_true_eq]
  exact le_total b.confidence a.confidence

/-- C4: every ordered pair of detections surviving `apply_nms` has IoU at
most the threshold (in both argument orders), and `apply_nms` is
idempotent: applying it to its own output returns the output unchanged. -/
theorem claim_C4 (l : List Detection) (τ : ℚ) :
    ((apply_nms l τ).Pairwise fun a b =>
        compute_iou a b ≤ τ ∧ compute_iou b a ≤ τ)
    ∧ apply_nms (apply_nms l τ) τ = apply_nms l τ := by
  constructor
  · exact (nmsLoop_pairwise τ _).imp fun h => ⟨h, compute_iou_comm _ _ ▸ h⟩
  · have hsorted : (apply_nms l τ).Pairwise fun a b => confGE a b := by
      have hms : (l.mergeSort confGE).Pairwise fun a b => confGE a b :=
        List.sorted_mergeSort confGE_trans confGE_total l
      exact hms.sublist (nmsLoop_sublist τ _)
    show nmsLoop τ ((apply_nms l τ).mergeSort confGE) = apply_nms l τ
    rw [List.mergeSort_of_sorted hsorted]
    exact nmsLoop_of_pairwise τ _ (nmsLoop_pairwise τ _)

/-- The decode loop's `push_back`-accumulator fold, rewritten as filter
plus map (helper for the decoder claims). -/
theorem plate_detection_raw_foldl (data : List ℚ) (stride : ℕ) (τ : ℚ) :
    ∀ (l : List ℕ) (acc : List Detection),
      l.foldl
        (fun acc i =>
          if τ ≤ rowConf data stride i then acc ++ [decodeRow data stride i] else acc)
        acc
      = acc ++ (l.filter fun i => decide (τ ≤ rowConf data stride i)).map
          (decodeRow data stride) := by
  intro l
  induction l with
  | nil => simp
  | cons a l ih =>
      intro acc
      by_cases h : τ ≤ rowConf data stride a
      · simp [List.filter_cons, h, ih]
      · simp [List.filter_cons, h, ih]

/-- C5: the pre-suppression decoder output is exactly the rows whose
column-4 confidence reaches the threshold, in input row order, each
converted through `decodeRow` (corner-form origin = center − size/2, size
kept); every output detection carries a confidence at least the threshold,
and every qualifying row's conversion appears in the output. -/
theorem claim_C5 (data : List ℚ) (num_detections stride : ℕ) (τ : ℚ) :
    plate_detection_raw data num_detections stride τ
      = ((List.range num_detections).filter fun i => decide (τ ≤ rowConf data stride i)).map
          (decodeRow data stride)
    ∧ (∀ d ∈ plate_detection_raw data num_detections stride τ, τ ≤ d.confidence)
    ∧ ∀ i < num_detections, τ ≤ rowConf data stride i →
        decodeRow data stride i ∈ plate_detection_raw data num_detections stride τ := by
  have heq := plate_detection_raw_foldl data stride τ (List.range num_detections) []
  refine ⟨heq, ?_, ?_⟩
  · intro d hd
    rw [show plate_detection_raw data num_detections stride τ
          = (List.range num_detections).foldl _ [] from rfl, heq] at hd
    simp only [List.nil_append, List.mem_map, List.mem_filter] at hd
    obtain ⟨i, ⟨_, hconf⟩, rfl⟩ := hd
    exact of_decide_eq_true hconf
  · intro i hi hconf
    rw [show plate_detection_raw data num_detections stride τ
          = (List.range num_detections).foldl _ [] from rfl, heq]
    simp only [List.nil_append, List.mem_map, List.mem_filter]
    exact ⟨i, ⟨List.mem_range.mpr hi, decide_eq_true hconf⟩, rfl⟩

/-- C5 witness: row 0 of a one-row stride-5 buffer with confidence 1 is
decoded and kept at threshold 1. -/
theorem claim_C5_witness :
    decodeRow [0, 0, 2, 0, 1] 5 0 ∈ plate_detection_raw [0, 0, 2, 0, 1] 1 5 1 :=
  (claim_C5 [0, 0, 2, 0, 1] 1 5 1).2.2 0 (by decide)
    (by simp [rowConf])

/-- C2: `plate_detection` surfaces no error of any kind.  With a declared
column stride of 4 (below the minimum 5) it happily decodes a detection out
of misaligned reads, and with a declared shape of 3 rows × stride 5 over a
10-element buffer (shorter than the implied 15 elements) it silently
truncates to the rows that fit instead of reporting a malformed input.  Its
return type (a plain detection list) has no error channel at all. -/
theorem claim_C2 :
    plate_detection [0, 0, 0, 0, 1, 1, 1, 1] 1 4
      = [{ x := 0, y := 0, width := 0, height := 0, confidence := 1, class_id := 0 }]
    ∧ plate_detection [0, 0, 2, 2, 1, 0, 0, 0, 0, 0] 3 5
      = [{ x := -1, y := -1, width := 2, height := 2, confidence := 1, class_id := 0 }] := by
  have hnms : ∀ (d : Detection) (τ : ℚ), apply_nms [d] τ = [d] := by
    intro d τ
    unfold apply_nms
    rw [List.mergeSort_singleton]
    simp [nmsLoop]
  constructor
  · have h0 : CONFIDENCE_THRESHOLD ≤ rowConf [0, 0, 0, 0, 1, 1, 1, 1] 4 0 := by
      norm_num [rowConf, CONFIDENCE_THRESHOLD, List.getD_cons_succ, List.getD_cons_zero]
    have hraw : plate_detection_raw [0, 0, 0, 0, 1, 1, 1, 1] 1 4 CONFIDENCE_THRESHOLD
        = [decodeRow [0, 0, 0, 0, 1, 1, 1, 1] 4 0] := by
      unfold plate_detection_raw
      rw [plate_detection_raw_foldl, show List.range 1 = [0] from rfl]
      simp [h0]
    show apply_nms (plate_detection_raw _ _ _ _) _ = _
    rw [hraw, hnms]
    norm_num [decodeRow, rowConf, List.getD_cons_succ, List.getD_cons_zero]
  · have h0 : CONFIDENCE_THRESHOLD ≤ rowConf [0, 0, 2, 2, 1, 0, 0, 0, 0, 0] 5 0 := by
      norm_num [rowConf, CONFIDENCE_THRESHOLD, List.getD_cons_succ, List.getD_cons_zero]
    have h1 : ¬ CONFIDENCE_THRESHOLD ≤ rowConf [0, 0, 2, 2, 1, 0, 0, 0, 0, 0] 5 1 := by
      norm_num [rowConf, CONFIDENCE_THRESHOLD, List.getD_cons_succ, List.getD_cons_zero,
        List.getD_nil]
    have h2 : ¬ CONFIDENCE_THRESHOLD ≤ rowConf [0, 0, 2, 2, 1, 0, 0, 0, 0, 0] 5 2 := by
      norm_num [rowConf, CONFIDENCE_THRESHOLD, List.getD_cons_succ, List.getD_cons_zero,
        List.getD_nil]
    have hraw : plate_detection_raw [0, 0, 2, 2, 1, 0, 0, 0, 0, 0] 3 5 CONFIDENCE_THRESHOLD
        = [decodeRow [0, 0, 2, 2, 1, 0, 0, 0, 0, 0] 5 0] := by
      unfold plate_detection_raw
      rw [plate_detection_raw_foldl, show List.range 3 = [0, 1, 2] from rfl]
      simp [h0, h1, h2]
    show apply_nms (plate_detection_raw _ _ _ _) _ = _
    rw [hraw, hnms]
    norm_num [decodeRow, rowConf, List.getD_cons_succ, List.getD_cons_zero]

/-- C6: for a frame of size W × H (both at least 1), each detection yields
at most one crop region (the per-detection body returns an `Option`, and
the loop's output is never longer than its input); an emitted region has
its origin inside the frame and positive size fitting within the frame
from that origin; and a detection whose clamped width or height is
non-positive yields no region. -/
theorem claim_C6 (W H : ℤ) (hW : 1 ≤ W) (hH : 1 ≤ H) (det : Detection) :
    (∀ r, crop_one W H det = some r →
      0 ≤ r.x ∧ r.x ≤ W - 1 ∧ 0 ≤ r.y ∧ r.y ≤ H - 1
      ∧ 0 < r.w ∧ r.w ≤ W - r.x ∧ 0 < r.h ∧ r.h ≤ H - r.y)
    ∧ ((cropW W det ≤ 0 ∨ cropH H det ≤ 0) → crop_one W H det = none)
    ∧ ∀ dets : List Detection, (crop_plates W H dets).length ≤ dets.length := by
  refine ⟨?_, ?_, ?_⟩
  · intro r hr
    unfold crop_one at hr
    by_cases hcond : cropW W det ≤ 0 ∨ cropH H det ≤ 0
    · rw [if_pos hcond] at hr
      exact absurd hr (by simp)
    · rw [if_neg hcond] at hr
      push_neg at hcond
      obtain ⟨hw, hh⟩ := hcond
      obtain rfl := Option.some.inj hr
      refine ⟨le_max_left 0 _, max_le (by linarith) (min_le_right _ _),
        le_max_left 0 _, max_le (by linarith) (min_le_right _ _),
        hw, min_le_right _ _, hh, min_le_right _ _⟩
  · intro hcond
    unfold crop_one
    exact if_pos hcond
  · intro dets
    exact List.length_filterMap_le _ _

/-- Evaluation of the crop body at the specification's worked example:
detection box origin (0.4, 0.45), size (0.2, 0.1), on an 800×400 frame,
yields the 160×40 region at pixel (320, 180). -/
theorem crop_example_eval : crop_one 800 400 exampleDet = some exampleRegion := by
  have hx : cropX 800 exampleDet = 320 := by
    norm_num [cropX, truncQ, exampleDet, min_def, max_def]
  have hy : cropY 400 exampleDet = 180 := by
    norm_num [cropY, truncQ, exampleDet, min_def, max_def]
  have hw : cropW 800 exampleDet = 160 := by
    unfold cropW
    rw [hx]
    norm_num [truncQ, exampleDet, min_def, max_def]
  have hh : cropH 400 exampleDet = 40 := by
    unfold cropH
    rw [hy]
    norm_num [truncQ, exampleDet, min_def, max_def]
  unfold crop_one
  rw [if_neg (by rw [hw, hh]; norm_num)]
  rw [hx, hy, hw, hh]
  rfl

/-- C6 witness: the worked example's emitted region satisfies the frame
bounds. -/
theorem claim_C6_witness :
    0 ≤ exampleRegion.x ∧ exampleRegion.x ≤ 800 - 1
    ∧ 0 ≤ exampleRegion.y ∧ exampleRegion.y ≤ 400 - 1
    ∧ 0 < exampleRegion.w ∧ exampleRegion.w ≤ 800 - exampleRegion.x
    ∧ 0 < exampleRegion.h ∧ exampleRegion.h ≤ 400 - exampleRegion.y :=
  (claim_C6 800 400 (by norm_num) (by norm_num) exampleDet).1 exampleRegion
    crop_example_eval

/-- C8: the validator strips every character outside `CHARSET` and accepts
the cleaned string exactly when its length lies in the inclusive range
[4, 8]; an all-valid string of length 4 to 8 is returned unchanged, and an
all-valid string of length 3 or 9 is rejected with the empty string. -/
theorem claim_C8 (text : List Char) :
    (validate_plate_text text
      = if 4 ≤ (text.filter validChar).length ∧ (text.filter validChar).length ≤ 8
        then text.filter validChar else [])
    ∧ ((∀ c ∈ text, validChar c) →
        ((4 ≤ text.length ∧ text.length ≤ 8) → validate_plate_text text = text)
        ∧ ((text.length = 3 ∨ text.length = 9) → validate_plate_text text = [])) := by
  constructor
  · simp only [validate_plate_text]
    by_cases h : 4 ≤ (text.filter validChar).length ∧ (text.filter validChar).length ≤ 8
    · rw [if_neg (by omega), if_pos h]
    · rw [if_pos (by omega), if_neg h]
  · intro hvalid
    have hfe : text.filter validChar = text := List.filter_eq_self.mpr hvalid
    constructor
    · intro hlen
      simp only [validate_plate_text, hfe]
      rw [if_neg (by omega)]
    · intro hlen
      simp only [validate_plate_text, hfe]
      rw [if_pos (by omega)]

/-- C8 witness: the all-valid string "ABC1" (length 4) is returned
unchanged, and the all-valid string "ABC" (length 3) is rejected. -/
theorem claim_C8_witness :
    validate_plate_text "ABC1".data = "ABC1".data
    ∧ validate_plate_text "ABC".data = [] :=
  ⟨((claim_C8 "ABC1".data).2 (by decide)).1 (by decide),
    ((claim_C8 "ABC".data).2 (by decide)).2 (by decide)⟩

/-- One decode step in the emitting case. -/
theorem ctcStep_emit (data : List ℚ) (C : ℕ) (st : CTCState) (t : ℕ)
    (h : (argmaxRow data C t).1 ≠ BLANK_INDEX ∧ (argmaxRow data C t).1 ≠ st.prev_char
      ∧ (argmaxRow data C t).1 < CHARSET.length) :
    ctcStep data C st t =
      { prev_char := (argmaxRow data C t).1
        text := st.text ++ [CHARSET.getD (argmaxRow data C t).1 ' ']
        char_confidences := st.char_confidences ++ [(argmaxRow data C t).2]
        total_conf := st.total_conf + (argmaxRow data C t).2
        char_count := st.char_count + 1 } := by
  simp only [ctcStep]
  rw [if_pos h]

/-- One decode step in the non-emitting case. -/
theorem ctcStep_skip (data : List ℚ) (C : ℕ) (st : CTCState) (t : ℕ)
    (h : ¬ ((argmaxRow data C t).1 ≠ BLANK_INDEX ∧ (argmaxRow data C t).1 ≠ st.prev_char
      ∧ (argmaxRow data C t).1 < CHARSET.length)) :
    ctcStep data C st t = { st with prev_char := (argmaxRow data C t).1 } := by
  simp only [ctcStep]
  rw [if_neg h]

/-- One collapse step in the emitting case. -/
theorem ctcCollapse_cons_emit (prev : ℕ) (m : ℕ × ℚ) (l : List (ℕ × ℚ))
    (h : m.1 ≠ BLANK_INDEX ∧ m.1 ≠ prev ∧ m.1 < CHARSET.length) :
    ctcCollapse prev (m :: l)
      = (CHARSET.getD m.1 ' ' :: (ctcCollapse m.1 l).1, m.2 :: (ctcCollapse m.1 l).2) := by
  simp only [ctcCollapse]
  rw [if_pos h]

/-- One collapse step in the non-emitting case. -/
theorem ctcCollapse_cons_skip (prev : ℕ) (m : ℕ × ℚ) (l : List (ℕ × ℚ))
    (h : ¬ (m.1 ≠ BLANK_INDEX ∧ m.1 ≠ prev ∧ m.1 < CHARSET.length)) :
    ctcCollapse prev (m :: l) = ctcCollapse m.1 l := by
  simp only [ctcCollapse]
  rw [if_neg h]

/-- The decode fold, started from any state, appends exactly the collapse
of the per-timestep argmax pairs: the emitted characters, their
confidences, and the running sum and count of those confidences. -/
theorem ctc_foldl_spec (data : List ℚ) (C : ℕ) :
    ∀ (ts : List ℕ) (st : CTCState),
      (ts.foldl (ctcStep data C) st).text
        = st.text ++ (ctcCollapse st.prev_char (ts.map (argmaxRow data C))).1
      ∧ (ts.foldl (ctcStep data C) st).char_confidences
        = st.char_confidences ++ (ctcCollapse st.prev_char (ts.map (argmaxRow data C))).2
      ∧ (ts.foldl (ctcStep data C) st).total_conf
        = st.total_conf + (ctcCollapse st.prev_char (ts.map (argmaxRow data C))).2.sum
      ∧ (ts.foldl (ctcStep data C) st).char_count
        = st.char_count + (ctcCollapse st.prev_char (ts.map (argmaxRow data C))).2.length := by
  intro ts
  induction ts with
  | nil =>
      intro st
      simp [ctcCollapse]
  | cons t ts ih =>
      intro st
      rw [List.foldl_cons, List.map_cons]
      by_cases hcond : (argmaxRow data C t).1 ≠ BLANK_INDEX
          ∧ (argmaxRow data C t).1 ≠ st.prev_char
          ∧ (argmaxRow data C t).1 < CHARSET.length
      · rw [ctcStep_emit data C st t hcond, ctcCollapse_cons_emit _ _ _ hcond]
        obtain ⟨h1, h2, h3, h4⟩ := ih
          { prev_char := (argmaxRow data C t).1
            text := st.text ++ [CHARSET.getD (argmaxRow data C t).1 ' ']
            char_confidences := st.char_confidences ++ [(argmaxRow data C t).2]
            total_conf := st.total_conf + (argmaxRow data C t).2
            char_count := st.char_count + 1 }
        refine ⟨?_, ?_, ?_, ?_⟩
        · rw [h1]
          simp
        · rw [h2]
          simp
        · rw [h3]
          simp only [List.sum_cons]
          ring
        · rw [h4]
          simp only [List.length_cons]
          omega
      · rw [ctcStep_skip data C st t hcond, ctcCollapse_cons_skip _ _ _ hcond]
        exact ih { st with prev_char := (argmaxRow data C t).1 }

/-- `ctc_greedy_decode` expressed through the collapse of the argmax
sequence. -/
theorem ctc_greedy_decode_eq (data : List ℚ) (T C : ℕ) :
    ctc_greedy_decode data T C
      = { text := (ctcCollapse BLANK_INDEX ((List.range T).map (argmaxRow data C))).1
          confidence :=
            if 0 < (ctcCollapse BLANK_INDEX ((List.range T).map (argmaxRow data C))).2.length
            then (ctcCollapse BLANK_INDEX ((List.range T).map (argmaxRow data C))).2.sum
              / ((ctcCollapse BLANK_INDEX ((List.range T).map (argmaxRow data C))).2.length : ℚ)
            else 0
          char_confidences :=
            (ctcCollapse BLANK_INDEX ((List.range T).map (argmaxRow data C))).2 } := by
  obtain ⟨h1, h2, h3, h4⟩ := ctc_foldl_spec data C (List.range T)
    { prev_char := BLANK_INDEX, text := [], char_confidences := [],
      total_conf := 0, char_count := 0 }
  simp only [List.nil_append] at h1 h2
  simp only [ctc_greedy_decode, h1, h2, h3, h4]
  norm_num

/-- A run of pairs whose index is always `BLANK_INDEX` collapses to
nothing. -/
theorem ctcCollapse_all_blank :
    ∀ (l : List (ℕ × ℚ)) (prev : ℕ), (∀ m ∈ l, m.1 = BLANK_INDEX) →
      ctcCollapse prev l = ([], []) := by
  intro l
  induction l with
  | nil => intro prev _; rfl
  | cons m l ih =>
      intro prev h
      have hm : m.1 = BLANK_INDEX := h m (List.mem_cons_self m l)
      rw [ctcCollapse_cons_skip _ _ _ (by simp [hm])]
      exact ih _ fun x hx => h x (List.mem_cons_of_mem m hx)

/-- A run of pairs whose index always equals the previous index collapses
to nothing. -/
theorem ctcCollapse_all_prev :
    ∀ (l : List (ℕ × ℚ)) (c : ℕ), (∀ m ∈ l, m.1 = c) →
      ctcCollapse c l = ([], []) := by
  intro l
  induction l with
  | nil => intro c _; rfl
  | cons m l ih =>
      intro c h
      have hm : m.1 = c := h m (List.mem_cons_self m l)
      rw [ctcCollapse_cons_skip _ _ _ (by simp [hm])]
      rw [hm]
      exact ih _ fun x hx => h x (List.mem_cons_of_mem m hx)

/-- A non-empty constant run of a valid non-blank index emits exactly one
character. -/
theorem ctcCollapse_const_run (c : ℕ) (hc : c < CHARSET.length) :
    ∀ (l : List (ℕ × ℚ)), l ≠ [] → (∀ m ∈ l, m.1 = c) →
      (ctcCollapse BLANK_INDEX l).1 = [CHARSET.getD c ' ']
      ∧ (ctcCollapse BLANK_INDEX l).2.length = 1 := by
  intro l hne h
  match l with
  | [] => exact absurd rfl hne
  | m :: l =>
      have hm : m.1 = c := h m (List.mem_cons_self m l)
      have hcb : c ≠ BLANK_INDEX := Nat.ne_of_lt hc
      rw [ctcCollapse_cons_emit _ _ _ (by simp [hm, hcb, hc])]
      rw [hm]
      rw [ctcCollapse_all_prev l c fun x hx => h x (List.mem_cons_of_mem m hx)]
      simp

/-- Invariant of the inner argmax scan: starting from a candidate whose
value is the running maximum of everything before position `s`, with all
positions strictly before the candidate strictly below it, the scan of
positions `s, s+1, …, s+n-1` preserves all four properties. -/
theorem argmax_fold_inv (row : ℕ → ℚ) :
    ∀ (n s : ℕ) (acc : ℕ × ℚ),
      acc.1 < s → acc.2 = row acc.1 →
      (∀ c < acc.1, row c < acc.2) → (∀ c < s, row c ≤ acc.2) →
      ((List.range' s n).foldl
          (fun acc c => if acc.2 < row c then (c, row c) else acc) acc).1 < s + n
      ∧ ((List.range' s n).foldl
          (fun acc c => if acc.2 < row c then (c, row c) else acc) acc).2
        = row ((List.range' s n).foldl
          (fun acc c => if acc.2 < row c then (c, row c) else acc) acc).1
      ∧ (∀ c < ((List.range' s n).foldl
          (fun acc c => if acc.2 < row c then (c, row c) else acc) acc).1,
          row c < ((List.range' s n).foldl
            (fun acc c => if acc.2 < row c then (c, row c) else acc) acc).2)
      ∧ (∀ c < s + n, row c ≤ ((List.range' s n).foldl
          (fun acc c => if acc.2 < row c then (c, row c) else acc) acc).2) := by
  intro n
  induction n with
  | zero =>
      intro s acc h1 h2 h3 h4
      simpa using ⟨h1, h2, h3, h4⟩
  | succ n ih =>
      intro s acc h1 h2 h3 h4
      rw [List.range'_succ, List.foldl_cons]
      by_cases hlt : acc.2 < row s
      · rw [if_pos hlt]
        have := ih (s + 1) (s, row s) (by omega) rfl
          (fun c hc => lt_of_le_of_lt (h4 c hc) hlt)
          (fun c hc => by
            rcases Nat.lt_succ_iff_lt_or_eq.mp hc with hc | hc
            · exact le_of_lt (lt_of_le_of_lt (h4 c hc) hlt)
            · subst hc; exact le_refl _)
        rw [show s + (n + 1) = s + 1 + n from by omega]
        exact this
      · rw [if_neg hlt]
        have := ih (s + 1) acc (by omega) h2 h3
          (fun c hc => by
            rcases Nat.lt_succ_iff_lt_or_eq.mp hc with hc | hc
            · exact h4 c hc
            · subst hc; exact le_of_not_lt hlt)
        rw [show s + (n + 1) = s + 1 + n from by omega]
        exact this

/-- The argmax of a timestep row: the chosen index is in range, carries its
own value, dominates every column of the row, and strictly dominates every
column before it (so the lowest index among maxima, first-seen, wins). -/
theorem argmaxRow_spec (data : List ℚ) (C t : ℕ) (hC : 1 ≤ C) :
    argmaxIdx data C t < C
    ∧ (argmaxRow data C t).2 = data.getD (t * C + argmaxIdx data C t) 0
    ∧ (∀ c < C, data.getD (t * C + c) 0 ≤ (argmaxRow data C t).2)
    ∧ (∀ c < argmaxIdx data C t, data.getD (t * C + c) 0 < (argmaxRow data C t).2) := by
  have h := argmax_fold_inv (fun c => data.getD (t * C + c) 0) (C - 1) 1
    (0, data.getD (t * C + 0) 0) (by omega) rfl
    (by intro c hc; omega)
    (by
      intro c hc
      have : c = 0 := by omega
      subst this
      exact le_refl _)
  rw [show 1 + (C - 1) = C from by omega] at h
  obtain ⟨ha, hb, hc, hd⟩ := h
  exact ⟨ha, hb, hd, hc⟩

/-- Evaluation of the decode on the specification's worked example: the
argmax sequence is [0, 0, 2, 1, 1, 2] and the decoded text is "0212" (the
fixed blank 36 never occurs; index 2 is the ordinary character '2'). -/
theorem exampleRecognition_text :
    (List.range 6).map (argmaxIdx exampleRecognition 3) = [0, 0, 2, 1, 1, 2]
    ∧ (ctc_greedy_decode exampleRecognition 6 3).text = ['0', '2', '1', '2'] := by
  constructor
  · decide
  · decide

/-- C1 (amended): at each timestep the decoder picks the class index with
the maximum value, first-seen maximum winning ties; the emitted text is the
collapse of that argmax sequence which emits a character exactly when the
index is not the fixed blank `BLANK_INDEX = 36` (the charset size — equal
to C−1 only when C = 37), differs from the previous timestep's index, and
is a valid charset position; on the specification's T=6, C=3 example the
decoded text is "0212", not "AB". -/
theorem claim_C1 (data : List ℚ) (T C : ℕ) (hC : 1 ≤ C) :
    (ctc_greedy_decode data T C).text
      = (ctcCollapse BLANK_INDEX ((List.range T).map (argmaxRow data C))).1
    ∧ (∀ t, argmaxIdx data C t < C
        ∧ (argmaxRow data C t).2 = data.getD (t * C + argmaxIdx data C t) 0
        ∧ (∀ c < C, data.getD (t * C + c) 0 ≤ (argmaxRow data C t).2)
        ∧ (∀ c < argmaxIdx data C t, data.getD (t * C + c) 0 < (argmaxRow data C t).2))
    ∧ (ctc_greedy_decode exampleRecognition 6 3).text = ['0', '2', '1', '2'] := by
  refine ⟨?_, fun t => argmaxRow_spec data C t hC, exampleRecognition_text.2⟩
  rw [ctc_greedy_decode_eq]

/-- C1 witness: the amended theorem instantiated at the worked example. -/
theorem claim_C1_witness :
    (ctc_greedy_decode exampleRecognition 6 3).text = ['0', '2', '1', '2'] :=
  (claim_C1 exampleRecognition 6 3 (by decide)).2.2

/-- C1 counterexample: on the specification's own example (T=6, C=3,
argmax sequence [0, 0, 2, 1, 1, 2]) the code decodes "0212" — four
characters, not the claimed two-character collapse "AB" — because the blank
the claim places at index C−1 = 2 is treated by the code as the ordinary
character '2' (its blank is fixed at index 36). -/
theorem claim_C1_cex :
    (List.range 6).map (argmaxIdx exampleRecognition 3) = [0, 0, 2, 1, 1, 2]
    ∧ (ctc_greedy_decode exampleRecognition 6 3).text = ['0', '2', '1', '2']
    ∧ (ctc_greedy_decode exampleRecognition 6 3).text ≠ ['A', 'B'] := by
  refine ⟨exampleRecognition_text.1, exampleRecognition_text.2, ?_⟩
  rw [exampleRecognition_text.2]
  decide

/-- Evaluation helper: the one-timestep, three-class buffer whose single
argmax is index 2 decodes to the text "2" with confidence 1. -/
theorem decode_blankish_eval : ctc_greedy_decode [0, 0, 1] 1 3 = ⟨['2'], 1, [1]⟩ := by
  have hstep : ctcStep [0, 0, 1] 3
      { prev_char := BLANK_INDEX, text := [], char_confidences := [],
        total_conf := 0, char_count := 0 } 0
      = { prev_char := 2, text := ['2'], char_confidences := [1],
          total_conf := 0 + 1, char_count := 0 + 1 } := by
    rw [ctcStep_emit _ _ _ _ (by decide)]
    rfl
  unfold ctc_greedy_decode
  rw [show List.range 1 = [0] from rfl, List.foldl_cons, List.foldl_nil, hstep]
  norm_num

/-- C9 counterexample: for C = 3 the claim's blank is index C−1 = 2, and on
the buffer [0, 0, 1] every timestep's argmax is that blank index; but the
code decodes the non-empty text "2" with confidence 1, not the empty string
with confidence 0 (its blank is the fixed index 36, not C−1). -/
theorem claim_C9_cex :
    (∀ t < 1, argmaxIdx [0, 0, 1] 3 t = 3 - 1)
    ∧ (ctc_greedy_decode [0, 0, 1] 1 3).text = ['2']
    ∧ (ctc_greedy_decode [0, 0, 1] 1 3).confidence = 1 := by
  refine ⟨by decide, ?_, ?_⟩
  · rw [decode_blankish_eval]
  · rw [decode_blankish_eval]

/-- C9 (amended): the aggregate confidence is the sum of the emitted
characters' per-timestep maximum values divided by the number of emitted
characters (0 when none is emitted); a buffer whose argmax at every
timestep is the code's fixed blank index 36 (= C−1 only when C = 37)
decodes to the empty string with confidence 0; and a buffer whose argmax at
every timestep is one and the same valid charset index c < 36 yields
exactly one emitted character. -/
theorem claim_C9 (data : List ℚ) (T C : ℕ) :
    ((ctc_greedy_decode data T C).confidence
      = if 0 < (ctc_greedy_decode data T C).char_confidences.length
        then (ctc_greedy_decode data T C).char_confidences.sum
          / ((ctc_greedy_decode data T C).char_confidences.length : ℚ)
        else 0)
    ∧ ((∀ t < T, argmaxIdx data C t = BLANK_INDEX) →
        (ctc_greedy_decode data T C).text = []
        ∧ (ctc_greedy_decode data T C).confidence = 0)
    ∧ (∀ c < CHARSET.length, 1 ≤ T → (∀ t < T, argmaxIdx data C t = c) →
        (ctc_greedy_decode data T C).text = [CHARSET.getD c ' ']
        ∧ (ctc_greedy_decode data T C).char_confidences.length = 1) := by
  refine ⟨?_, ?_, ?_⟩
  · rw [ctc_greedy_decode_eq]
  · intro hblank
    have hall : ∀ m ∈ (List.range T).map (argmaxRow data C), m.1 = BLANK_INDEX := by
      intro m hm
      obtain ⟨t, ht, rfl⟩ := List.mem_map.mp hm
      exact hblank t (List.mem_range.mp ht)
    rw [ctc_greedy_decode_eq, ctcCollapse_all_blank _ _ hall]
    norm_num
  · intro c hc hT hsame
    have hall : ∀ m ∈ (List.range T).map (argmaxRow data C), m.1 = c := by
      intro m hm
      obtain ⟨t, ht, rfl⟩ := List.mem_map.mp hm
      exact hsame t (List.mem_range.mp ht)
    have hne : (List.range T).map (argmaxRow data C) ≠ [] := by
      simp [List.range_eq_nil]
      omega
    rw [ctc_greedy_decode_eq]
    exact ctcCollapse_const_run c hc _ hne hall

set_option maxRecDepth 20000 in
/-- C9 witness: the amended theorem at two concrete buffers — a one-step
37-class buffer whose argmax is the true blank 36 (empty decode, zero
confidence), and a two-step two-class buffer constantly choosing class 0
(exactly one emitted character). -/
theorem claim_C9_witness :
    ((ctc_greedy_decode (List.replicate 36 (0 : ℚ) ++ [1]) 1 37).text = []
      ∧ (ctc_greedy_decode (List.replicate 36 (0 : ℚ) ++ [1]) 1 37).confidence = 0)
    ∧ ((ctc_greedy_decode [1, 0, 1, 0] 2 2).text = [CHARSET.getD 0 ' ']
      ∧ (ctc_greedy_decode [1, 0, 1, 0] 2 2).char_confidences.length = 1) :=
  ⟨(claim_C9 (List.replicate 36 (0 : ℚ) ++ [1]) 1 37).2.1 (by decide),
    (claim_C9 [1, 0, 1, 0] 2 2).2.2 0 (by decide) (by decide) (by decide)⟩

/-- Evaluation helper: the four-step two-class buffer alternating between
classes 0 and 1 decodes to "0101" with aggregate confidence 1. -/
theorem decode_0101_conf : (ctc_greedy_decode [1, 0, 0, 1, 1, 0, 0, 1] 4 2).confidence = 1 := by
  rw [ctc_greedy_decode_eq]
  have hcs : (ctcCollapse BLANK_INDEX
      ((List.range 4).map (argmaxRow [1, 0, 0, 1, 1, 0, 0, 1] 2))).2 = [1, 1, 1, 1] := by
    decide
  rw [hcs]
  norm_num

/-- C10: `plate_ocr` returns a (single) classification exactly when the
validated text is non-empty and the decode confidence — computed by
`ctc_greedy_decode` over the raw, pre-validation text — reaches
`MIN_CONFIDENCE = 0.6`; the emitted record carries that confidence, the
raw text, and the validated text as its label. -/
theorem claim_C10 (data : List ℚ) (T C : ℕ) :
    (plate_ocr data T C ≠ []
      ↔ validate_plate_text (ctc_greedy_decode data T C).text ≠ []
        ∧ MIN_CONFIDENCE ≤ (ctc_greedy_decode data T C).confidence)
    ∧ (plate_ocr data T C).length ≤ 1
    ∧ ∀ r ∈ plate_ocr data T C,
        r.confidence = (ctc_greedy_decode data T C).confidence
        ∧ r.raw_text = (ctc_greedy_decode data T C).text
        ∧ r.label = validate_plate_text (ctc_greedy_decode data T C).text := by
  by_cases h : validate_plate_text (ctc_greedy_decode data T C).text ≠ []
      ∧ MIN_CONFIDENCE ≤ (ctc_greedy_decode data T C).confidence
  · refine ⟨?_, ?_, ?_⟩
    · simp [plate_ocr, h]
    · simp [plate_ocr, h]
    · intro r hr
      simp only [plate_ocr, if_pos h, List.mem_singleton] at hr
      subst hr
      exact ⟨rfl, rfl, rfl⟩
  · refine ⟨?_, ?_, ?_⟩
    · simp only [plate_ocr, if_neg h]
      simp [h]
    · simp [plate_ocr, h]
    · intro r hr
      simp [plate_ocr, if_neg h] at hr

/-- C10 witness: a buffer decoding to the four-character text "0101" with
confidence 1 produces a classification. -/
theorem claim_C10_witness : plate_ocr [1, 0, 0, 1, 1, 0, 0, 1] 4 2 ≠ [] :=
  (claim_C10 [1, 0, 0, 1, 1, 0, 0, 1] 4 2).1.mpr
    ⟨by decide, by rw [decode_0101_conf]; norm_num [MIN_CONFIDENCE]⟩

end ANPR
